import Mathlib

/-!
Verification of the MuRa web app's data pipeline (src/app.js) against its
specification.  The JavaScript source is shallowly embedded: each embedded
definition names the source function (or the numbered step of `initData`)
it translates, and the claims of the spec are settled as theorems about
these definitions.
-/

/-- A raw line record as delivered by one `data/verse_N.0.json` document.
Field names follow the JSON fields read by `src/app.js`
(`verse_number`, `line_number`, `chapter`, `kannada_original`,
`english_transliteration`, `english_translation`).  `verse_number` is a
decimal number, embedded as a rational; the optional fields model JS
`undefined` via `Option`. -/
structure LineRecord where
  chapter : Option String
  verse_number : Rat
  line_number : Option Int
  kannada_original : Option String
  english_transliteration : Option String
  english_translation : Option String
deriving DecidableEq

/-- A processed verse, as built by `initData` step 3 (src/app.js 59-79):
`{ id: vNum, chapter: record.chapter, lines: [...] }`. -/
structure Verse where
  id : Int
  chapter : Option String
  lines : List LineRecord
deriving DecidableEq

/-- Embeds `toggleFavorite` (src/app.js 441-449): `indexOf(id)` is `-1`
exactly when `id` is not contained, in which case the id is `push`ed at the
end; otherwise `splice(index, 1)` removes that first occurrence, which is
what `List.erase` does. The `localStorage.setItem` persistence writes
`favsToJson` of the returned list. -/
def toggleFavorite (favorites : List Int) (i : Int) : List Int :=
  if favorites.contains i then favorites.erase i else favorites ++ [i]

/-- Embeds `JSON.stringify` on the favorites array (src/app.js 448): an
array of integers serializes as `[a,b,c]` with no whitespace. -/
def favsToJson (favorites : List Int) : String :=
  "[" ++ String.intercalate "," (favorites.map toString) ++ "]"

/-- Embeds the membership test `state.favorites.includes(id)` used
throughout src/app.js (e.g. line 283). -/
def isFavorite (favorites : List Int) (i : Int) : Bool :=
  favorites.contains i

theorem contains_eq_true_iff (l : List Int) (i : Int) :
    l.contains i = true ↔ i ∈ l := by
  simp

theorem toggleFavorite_of_mem (l : List Int) (i : Int) (h : i ∈ l) :
    toggleFavorite l i = l.erase i := by
  simp [toggleFavorite, h]

theorem toggleFavorite_of_not_mem (l : List Int) (i : Int) (h : i ∉ l) :
    toggleFavorite l i = l ++ [i] := by
  simp [toggleFavorite, h]

/-- C6 counterexample: starting from favorites `[5, 7]` (persisted as the
string `[5,7]`), toggling id `5` twice yields `[7, 5]`, persisted as
`[7,5]`: membership is restored but the stored bytes differ, refuting the
byte-identical-storage part of the claim. -/
theorem c6_storage_counterexample :
    toggleFavorite (toggleFavorite [5, 7] 5) 5 = [7, 5] ∧
    favsToJson (toggleFavorite (toggleFavorite [5, 7] 5) 5) = "[7,5]" ∧
    favsToJson [5, 7] = "[5,7]" ∧
    favsToJson (toggleFavorite (toggleFavorite [5, 7] 5) 5) ≠ favsToJson [5, 7] := by
  refine ⟨by decide, rfl, rfl, by decide⟩

/-- C6 (amended): for a duplicate-free favorites list, toggling an id twice
restores the original `isFavorite` value of that id and the membership of
every id; when the id was not originally a favorite the list itself, and
hence the persisted storage string, is restored exactly. -/
theorem c6_amended_toggle_twice (l : List Int) (i : Int) (h : l.Nodup) :
    isFavorite (toggleFavorite (toggleFavorite l i) i) i = isFavorite l i ∧
    (∀ j : Int, j ∈ toggleFavorite (toggleFavorite l i) i ↔ j ∈ l) ∧
    (i ∉ l → toggleFavorite (toggleFavorite l i) i = l ∧
      favsToJson (toggleFavorite (toggleFavorite l i) i) = favsToJson l) := by
  by_cases hm : i ∈ l
  · have h1 : toggleFavorite l i = l.erase i := toggleFavorite_of_mem l i hm
    have hni : i ∉ l.erase i := by
      intro hmem
      exact absurd (h.mem_erase_iff.mp hmem).1 (by simp)
    have h2 : toggleFavorite (toggleFavorite l i) i = l.erase i ++ [i] := by
      rw [h1, toggleFavorite_of_not_mem _ _ hni]
    refine ⟨?_, ?_, fun hc => absurd hm hc⟩
    · simp only [h2, isFavorite]
      simp [hm]
    · intro j
      rw [h2]
      simp only [List.mem_append, h.mem_erase_iff, List.mem_singleton]
      by_cases hj : j = i
      · subst hj; simp [hm]
      · simp [hj]
  · have h1 : toggleFavorite l i = l ++ [i] := toggleFavorite_of_not_mem l i hm
    have h2 : toggleFavorite (toggleFavorite l i) i = l := by
      rw [h1, toggleFavorite_of_mem _ _ (by simp), List.erase_append_right _ hm]
      simp
    refine ⟨by rw [h2], fun j => by rw [h2], fun _ => ⟨h2, by rw [h2]⟩⟩

/-- C6 witness: the amended theorem at favorites `[5, 7]` and id `9`. -/
theorem c6_amended_witness :
    ([5, 7] : List Int).Nodup ∧ (9 : Int) ∉ ([5, 7] : List Int) ∧
    toggleFavorite (toggleFavorite [5, 7] 9) 9 = [5, 7] :=
  ⟨by decide, by decide,
    ((c6_amended_toggle_twice [5, 7] 9 (by decide)).2.2 (by decide)).1⟩

/-- C10: on a duplicate-free favorites list a single `toggleFavorite i`
keeps the list duplicate-free, flips the membership of `i`, and leaves the
membership of every other id unchanged. -/
theorem c10_toggle_preserves_set (l : List Int) (i : Int) (h : l.Nodup) :
    (toggleFavorite l i).Nodup ∧
    ((i ∈ toggleFavorite l i) ↔ i ∉ l) ∧
    (∀ j : Int, j ≠ i → ((j ∈ toggleFavorite l i) ↔ j ∈ l)) := by
  by_cases hm : i ∈ l
  · rw [toggleFavorite_of_mem l i hm]
    refine ⟨h.erase i, ?_, ?_⟩
    · simp [h.mem_erase_iff, hm]
    · intro j hj
      exact List.mem_erase_of_ne hj
  · rw [toggleFavorite_of_not_mem l i hm]
    refine ⟨?_, ?_, ?_⟩
    · rw [List.nodup_append]
      exact ⟨h, List.nodup_singleton i, by simpa using fun hx => hm hx⟩
    · simp [hm]
    · intro j hj
      simp [hj]

/-- C10 witness: toggling `5` on `[5, 7]` keeps the list duplicate-free
and removes exactly `5`. -/
theorem c10_witness :
    ([5, 7] : List Int).Nodup ∧ (toggleFavorite [5, 7] 5).Nodup ∧
    ((5 : Int) ∈ toggleFavorite [5, 7] 5 ↔ (5 : Int) ∉ ([5, 7] : List Int)) :=
  ⟨by decide, (c10_toggle_preserves_set [5, 7] 5 (by decide)).1,
    (c10_toggle_preserves_set [5, 7] 5 (by decide)).2.1⟩

/-- Lower-cases a character sequence; models `String.prototype.toLowerCase`
as applied by src/app.js (ASCII case mapping via `Char.toLower`). -/
def lowerChars (cs : List Char) : List Char := cs.map Char.toLower

/-- Prefix test on character sequences (`startsWith pat hay` is true iff
`hay` begins with `pat`). -/
def startsWith : List Char → List Char → Bool
  | [], _ => true
  | _ :: _, [] => false
  | p :: ps, c :: cs => p == c && startsWith ps cs

/-- Embeds `String.prototype.includes`: `strIncludes hay pat` is true iff
`pat` occurs contiguously inside `hay`. -/
def strIncludes : List Char → List Char → Bool
  | [], pat => startsWith pat []
  | c :: rest, pat => startsWith pat (c :: rest) || strIncludes rest pat

/-- `pat` occurs as a contiguous substring of `hay`. -/
def OccursIn (pat hay : List Char) : Prop := ∃ l r, hay = l ++ pat ++ r

/-- Embeds the per-line text of the search filter (src/app.js 209-213):
`(l.kannada_original || '') + (l.english_transliteration || '') +
(l.english_translation || '')`. -/
def lineText (l : LineRecord) : String :=
  l.kannada_original.getD "" ++ l.english_transliteration.getD "" ++
    l.english_translation.getD ""

/-- Embeds `v.lines.map(...).join(' ')` of the search filter. -/
def rawText (v : Verse) : String :=
  String.intercalate " " (v.lines.map lineText)

/-- Embeds the search-filter predicate (src/app.js 206-215): the query is
lower-cased once, and a verse is retained when the lower-cased joined line
text, the lower-cased chapter label (`v.chapter || ''`), or the decimal
string of `v.id` contains it. -/
def verseMatches (q : String) (v : Verse) : Bool :=
  let ql := lowerChars q.toList
  strIncludes (lowerChars (rawText v).toList) ql ||
  strIncludes (lowerChars (v.chapter.getD "").toList) ql ||
  strIncludes (toString v.id).toList ql


/-- Embeds the filter stage of `renderList` (src/app.js 199-216): start
from `state.verses`, keep favorites when `onlyFavorites`, then apply the
search filter when the query string is truthy (a JS string is truthy iff
it is non-empty). -/
def matchedVerses (verses : List Verse) (favorites : List Int) (q : String)
    (onlyFavorites : Bool) : List Verse :=
  let displayData :=
    if onlyFavorites then verses.filter (fun v => favorites.contains v.id) else verses
  if q = "" then displayData else displayData.filter (fun v => verseMatches q v)

/-- The data-facing outcome of one `renderList` call: the verses rendered,
whether the load-more placeholder (infinite-scroll sentinel) is appended,
whether the end-of-verses message is appended, and whether the
"No verses found" empty state is shown instead. -/
structure RenderResult where
  visible : List Verse
  showLoadMore : Bool
  showEndMarker : Bool
  noResults : Bool
deriving DecidableEq

/-- Embeds `renderList` (src/app.js 192-280) as a pure evaluation:
`start = (currentPage - 1) * itemsPerPage`, `limit = start + itemsPerPage`,
`slicedData = searchQuery ? displayData : displayData.slice(0, limit)`;
an empty `slicedData` early-returns the "No verses found" state (223-226);
the load-more placeholder is appended iff not searching and
`slicedData.length < displayData.length` (247), and the end message iff not
searching, `slicedData.length === displayData.length` and
`displayData.length > itemsPerPage` (270). -/
def renderList (verses : List Verse) (favorites : List Int) (q : String)
    (currentPage itemsPerPage : Nat) (onlyFavorites : Bool) : RenderResult :=
  let displayData := matchedVerses verses favorites q onlyFavorites
  let start := (currentPage - 1) * itemsPerPage
  let limit := start + itemsPerPage
  let slicedData := if q = "" then displayData.take limit else displayData
  if slicedData.isEmpty then
    { visible := [], showLoadMore := false, showEndMarker := false, noResults := true }
  else
    { visible := slicedData
      showLoadMore := decide (q = "") && decide (slicedData.length < displayData.length)
      showEndMarker := decide (q = "") && decide (slicedData.length = displayData.length) &&
        decide (displayData.length > itemsPerPage)
      noResults := false }

/-- A minimal verse used to instantiate scenarios. -/
def sampleVerse (n : Int) : Verse := ⟨n, none, []⟩

theorem renderList_empty_query (verses : List Verse) (favorites : List Int)
    (page per : Nat) (fav : Bool) :
    renderList verses favorites "" page per fav =
      (if ((matchedVerses verses favorites "" fav).take ((page - 1) * per + per)).isEmpty then
        { visible := [], showLoadMore := false, showEndMarker := false, noResults := true }
      else
        { visible := (matchedVerses verses favorites "" fav).take ((page - 1) * per + per)
          showLoadMore := decide
            (((matchedVerses verses favorites "" fav).take ((page - 1) * per + per)).length <
              (matchedVerses verses favorites "" fav).length)
          showEndMarker := decide
            (((matchedVerses verses favorites "" fav).take ((page - 1) * per + per)).length =
              (matchedVerses verses favorites "" fav).length) &&
            decide ((matchedVerses verses favorites "" fav).length > per)
          noResults := false }) := rfl

theorem renderList_search_query (verses : List Verse) (favorites : List Int)
    (q : String) (page per : Nat) (fav : Bool) (hq : q ≠ "") :
    renderList verses favorites q page per fav =
      (if (matchedVerses verses favorites q fav).isEmpty then
        { visible := [], showLoadMore := false, showEndMarker := false, noResults := true }
      else
        { visible := matchedVerses verses favorites q fav
          showLoadMore := false
          showEndMarker := false
          noResults := false }) := by
  simp only [renderList, if_neg hq, decide_eq_true_eq, Bool.and_eq_false_iff]
  split
  · rfl
  · simp [hq]

/-- C1: with an empty search term, `renderList` computes
`limit = pageCursor * pageSize`, renders the first `min(limit, len(matched))`
matched verses in order, and takes the load-more branch exactly when
`limit < len(matched)`. -/
theorem c1_pagination (verses : List Verse) (favorites : List Int)
    (page per : Nat) (fav : Bool) (hp : 1 ≤ page) (hper : 1 ≤ per) :
    (renderList verses favorites "" page per fav).visible =
      (matchedVerses verses favorites "" fav).take (page * per) ∧
    ((renderList verses favorites "" page per fav).showLoadMore = true ↔
      page * per < (matchedVerses verses favorites "" fav).length) := by
  obtain ⟨n, rfl⟩ := Nat.exists_eq_add_of_le hp
  have hlim : (1 + n - 1) * per + per = (1 + n) * per := by
    rw [Nat.add_sub_cancel_left]; ring
  rw [renderList_empty_query, hlim]
  set m := matchedVerses verses favorites "" fav with hm
  by_cases hE : (m.take ((1 + n) * per)).isEmpty
  · rw [if_pos hE]
    rcases List.take_eq_nil_iff.mp (List.isEmpty_iff.mp hE) with h0 | h0
    · exact absurd (Nat.mul_eq_zero.mp h0) (by omega)
    · rw [h0]
      simp
  · rw [if_neg hE]
    refine ⟨rfl, ?_⟩
    simp only [List.length_take, decide_eq_true_eq]
    rw [min_lt_iff]
    simp

/-- C1 witness: the spec scenario with verse ids `[1, 2, 3]` and page size
2: cursor 1 shows `[1, 2]` with the load-more branch taken; cursor 2 shows
`[1, 2, 3]` without it. -/
theorem c1_scenario_witness :
    (1 ≤ 1 ∧ 1 ≤ 2) ∧
    (renderList [sampleVerse 1, sampleVerse 2, sampleVerse 3] [] "" 1 2 false).visible =
      [sampleVerse 1, sampleVerse 2] ∧
    (renderList [sampleVerse 1, sampleVerse 2, sampleVerse 3] [] "" 1 2 false).showLoadMore = true ∧
    (renderList [sampleVerse 1, sampleVerse 2, sampleVerse 3] [] "" 2 2 false).visible =
      [sampleVerse 1, sampleVerse 2, sampleVerse 3] ∧
    (renderList [sampleVerse 1, sampleVerse 2, sampleVerse 3] [] "" 2 2 false).showLoadMore = false := by
  have h := c1_pagination [sampleVerse 1, sampleVerse 2, sampleVerse 3] [] 1 2 false
    (le_refl 1) (by decide)
  exact ⟨⟨le_refl 1, by decide⟩, h.1.trans (by decide), h.2.mpr (by decide), by decide, by decide⟩

/-- C2: with a non-empty search term, `renderList` shows the entire matched
sequence (no pagination slice) and never takes the load-more branch. -/
theorem c2_search_bypass (verses : List Verse) (favorites : List Int) (q : String)
    (page per : Nat) (fav : Bool) (hq : q ≠ "") :
    (renderList verses favorites q page per fav).visible =
      matchedVerses verses favorites q fav ∧
    (renderList verses favorites q page per fav).showLoadMore = false := by
  rw [renderList_search_query verses favorites q page per fav hq]
  by_cases hE : (matchedVerses verses favorites q fav).isEmpty
  · rw [if_pos hE, List.isEmpty_iff.mp hE]
    exact ⟨rfl, rfl⟩
  · rw [if_neg hE]
    exact ⟨rfl, rfl⟩

/-- C2 witness: searching `"x"` in a one-verse catalog takes the search
branch: `visible` is the whole matched list and no load-more sentinel. -/
theorem c2_witness :
    ("x" : String) ≠ "" ∧
    (renderList [sampleVerse 1] [] "x" 1 2 false).visible =
      matchedVerses [sampleVerse 1] [] "x" false ∧
    (renderList [sampleVerse 1] [] "x" 1 2 false).showLoadMore = false :=
  ⟨by decide, (c2_search_bypass [sampleVerse 1] [] "x" 1 2 false (by decide)).1,
    (c2_search_bypass [sampleVerse 1] [] "x" 1 2 false (by decide)).2⟩

/-- C9: the end-of-list marker is shown iff no search term is active, all
matched verses are visible (`hasMore` is false, i.e.
`len(matched) ≤ pageCursor * pageSize`), and the matched count strictly
exceeds one page size. -/
theorem c9_end_marker (verses : List Verse) (favorites : List Int) (q : String)
    (page per : Nat) (fav : Bool) (hp : 1 ≤ page) (hper : 1 ≤ per) :
    ((renderList verses favorites q page per fav).showEndMarker = true ↔
      (q = "" ∧ (matchedVerses verses favorites q fav).length ≤ page * per ∧
        per < (matchedVerses verses favorites q fav).length)) := by
  by_cases hq : q = ""
  · subst hq
    obtain ⟨n, rfl⟩ := Nat.exists_eq_add_of_le hp
    have hlim : (1 + n - 1) * per + per = (1 + n) * per := by
      rw [Nat.add_sub_cancel_left]; ring
    rw [renderList_empty_query, hlim]
    set m := matchedVerses verses favorites "" fav with hm
    by_cases hE : (m.take ((1 + n) * per)).isEmpty
    · rw [if_pos hE]
      rcases List.take_eq_nil_iff.mp (List.isEmpty_iff.mp hE) with h0 | h0
      · exact absurd (Nat.mul_eq_zero.mp h0) (by omega)
      · rw [h0]
        simp
    · rw [if_neg hE]
      simp only [List.length_take, Bool.and_eq_true, decide_eq_true_eq,
        min_eq_right_iff, gt_iff_lt]
      tauto
  · rw [renderList_search_query verses favorites q page per fav hq]
    by_cases hE : (matchedVerses verses favorites q fav).isEmpty
    · rw [if_pos hE]
      simp [hq]
    · rw [if_neg hE]
      simp [hq]

/-- C9 witness: 3 matched verses, page size 2, cursor 2: everything is
visible, more than one page was needed, so the end marker appears; at
cursor 1 with only the first page visible it does not. -/
theorem c9_witness :
    (1 ≤ 2 ∧ 1 ≤ 2) ∧
    (renderList [sampleVerse 1, sampleVerse 2, sampleVerse 3] [] "" 2 2 false).showEndMarker = true ∧
    (renderList [sampleVerse 1, sampleVerse 2, sampleVerse 3] [] "" 1 2 false).showEndMarker = false :=
  ⟨⟨by decide, by decide⟩,
    (c9_end_marker [sampleVerse 1, sampleVerse 2, sampleVerse 3] [] "" 2 2 false
      (by decide) (by decide)).mpr ⟨rfl, by decide, by decide⟩,
    by decide⟩

/-- Id of the verse a record belongs to: embeds
`Math.floor(record.verse_number)` (src/app.js 64). -/
def floorId (r : LineRecord) : Int := r.verse_number.floor

/-- Sort key of a line: embeds `(l.line_number || 0)` (src/app.js 77),
a missing line number counting as 0. -/
def lineKey (r : LineRecord) : Int := r.line_number.getD 0

/-- Inserts `x` into `l` before the first element whose key is not smaller;
`sortByKey` below builds a stable ascending sort from it, modelling
`Array.prototype.sort` with a numeric key comparator (stable per the
ECMAScript spec). -/
def insertKey {α : Type} (key : α → Int) (x : α) : List α → List α
  | [] => [x]
  | y :: ys => if key y < key x then y :: insertKey key x ys else x :: y :: ys

/-- Stable ascending sort by an integer key; models the two
`Array.prototype.sort` calls of src/app.js 76-79. -/
def sortByKey {α : Type} (key : α → Int) : List α → List α
  | [] => []
  | x :: xs => insertKey key x (sortByKey key xs)

theorem insertKey_perm {α : Type} (key : α → Int) (x : α) (l : List α) :
    (insertKey key x l).Perm (x :: l) := by
  induction l with
  | nil => exact List.Perm.refl _
  | cons y ys ih =>
    by_cases h : key y < key x
    · simp only [insertKey, if_pos h]
      exact (ih.cons y).trans (List.Perm.swap x y ys)
    · simp only [insertKey, if_neg h]
      exact List.Perm.refl _

theorem sortByKey_perm {α : Type} (key : α → Int) (l : List α) :
    (sortByKey key l).Perm l := by
  induction l with
  | nil => exact List.Perm.refl _
  | cons x xs ih => exact (insertKey_perm key x (sortByKey key xs)).trans (ih.cons x)

theorem insertKey_pairwise {α : Type} (key : α → Int) (x : α) {l : List α}
    (h : l.Pairwise (fun a b => key a ≤ key b)) :
    (insertKey key x l).Pairwise (fun a b => key a ≤ key b) := by
  induction l with
  | nil => simp [insertKey]
  | cons y ys ih =>
    rw [List.pairwise_cons] at h
    obtain ⟨hy, hys⟩ := h
    by_cases hk : key y < key x
    · simp only [insertKey, if_pos hk]
      rw [List.pairwise_cons]
      refine ⟨?_, ih hys⟩
      intro z hz
      rcases List.mem_cons.mp ((insertKey_perm key x ys).mem_iff.mp hz) with hz | hz
      · exact hz ▸ le_of_lt hk
      · exact hy z hz
    · simp only [insertKey, if_neg hk]
      rw [List.pairwise_cons]
      refine ⟨?_, List.pairwise_cons.mpr ⟨hy, hys⟩⟩
      intro z hz
      rcases List.mem_cons.mp hz with hz | hz
      · exact hz ▸ le_of_not_lt hk
      · exact le_trans (le_of_not_lt hk) (hy z hz)

theorem sortByKey_pairwise {α : Type} (key : α → Int) (l : List α) :
    (sortByKey key l).Pairwise (fun a b => key a ≤ key b) := by
  induction l with
  | nil => simp [sortByKey]
  | cons x xs ih => exact insertKey_pairwise key x ih

theorem insertKey_filter {α : Type} (key : α → Int) (x : α) (l : List α) (k : Int) :
    (insertKey key x l).filter (fun a => key a == k) =
      if key x = k then x :: l.filter (fun a => key a == k)
      else l.filter (fun a => key a == k) := by
  induction l with
  | nil =>
    simp only [insertKey, List.filter_cons, List.filter_nil]
    by_cases hx : key x = k
    · simp [hx]
    · simp [hx]
  | cons y ys ih =>
    by_cases hyx : key y < key x
    · simp only [insertKey, if_pos hyx, List.filter_cons, ih]
      by_cases hx : key x = k
      · have hy : ¬(key y = k) := by omega
        simp [hx, hy]
      · simp [hx]
    · simp only [insertKey, if_neg hyx, List.filter_cons]
      by_cases hx : key x = k
      · simp [hx]
      · simp [hx]

theorem sortByKey_filter {α : Type} (key : α → Int) (l : List α) (k : Int) :
    (sortByKey key l).filter (fun a => key a == k) =
      l.filter (fun a => key a == k) := by
  induction l with
  | nil => rfl
  | cons x xs ih =>
    rw [sortByKey, insertKey_filter, ih, List.filter_cons]
    by_cases hx : key x = k
    · simp [hx]
    · simp [hx]

/-- One step of the grouping loop of `initData` (src/app.js 61-73): if a
group for `Math.floor(record.verse_number)` exists, the record is pushed
onto its `lines`; otherwise a new group
`{ id: vNum, chapter: record.chapter, lines: [record] }` is created.
Groups are kept in first-creation order, matching JS object insertion
semantics (the later explicit sort by id makes the enumeration order of
`Object.values` irrelevant). -/
def addRecord (grouped : List Verse) (record : LineRecord) : List Verse :=
  if grouped.any (fun v => v.id == floorId record) then
    grouped.map (fun v =>
      if v.id == floorId record then { v with lines := v.lines ++ [record] } else v)
  else
    grouped ++ [{ id := floorId record, chapter := record.chapter, lines := [record] }]

/-- The grouping loop `rawData.forEach(record => ...)` (src/app.js 61-73). -/
def groupRecords (rawData : List LineRecord) : List Verse :=
  rawData.foldl addRecord []

/-- Embeds `verse.lines.sort((a, b) => (a.line_number || 0) - (b.line_number || 0))`
(src/app.js 77). -/
def sortVerseLines (v : Verse) : Verse :=
  { v with lines := sortByKey lineKey v.lines }

/-- Embeds `initData` step 4 (src/app.js 76-79): sort each group's lines,
then sort the verse array ascending by id. -/
def initVerses (rawData : List LineRecord) : List Verse :=
  sortByKey (fun v => v.id) ((groupRecords rawData).map sortVerseLines)

/-- Invariant of the grouping loop after consuming `processed`: group ids
are pairwise distinct, each group's `lines` are exactly the records of its
id in input order, and every processed record has a group. -/
def GroupInv (processed : List LineRecord) (grouped : List Verse) : Prop :=
  (grouped.map (fun v => v.id)).Nodup ∧
  (∀ v ∈ grouped, v.lines = processed.filter (fun r => floorId r == v.id)) ∧
  (∀ r ∈ processed, ∃ v ∈ grouped, v.id = floorId r)

theorem addRecord_inv (processed : List LineRecord) (grouped : List Verse)
    (record : LineRecord) (h : GroupInv processed grouped) :
    GroupInv (processed ++ [record]) (addRecord grouped record) := by
  obtain ⟨hnd, hlines, hcover⟩ := h
  by_cases hex : grouped.any (fun v => v.id == floorId record) = true
  · simp only [addRecord, if_pos hex]
    have hid : ∀ v : Verse,
        ((if v.id == floorId record then { v with lines := v.lines ++ [record] } else v) :
          Verse).id = v.id := by
      intro v; split <;> rfl
    refine ⟨?_, ?_, ?_⟩
    · rw [List.map_map]
      have hmm : List.map ((fun v : Verse => v.id) ∘ fun v : Verse =>
          if v.id == floorId record then { v with lines := v.lines ++ [record] } else v)
          grouped = List.map (fun v : Verse => v.id) grouped :=
        List.map_congr_left (fun a _ => hid a)
      rw [hmm]
      exact hnd
    · intro v' hv'
      obtain ⟨v, hv, rfl⟩ := List.mem_map.mp hv'
      by_cases hvk : v.id = floorId record
      · have hb : (v.id == floorId record) = true := beq_iff_eq.mpr hvk
        simp only [hb, if_true]
        rw [List.filter_append, ← hlines v hv]
        have : (floorId record == v.id) = true := beq_iff_eq.mpr hvk.symm
        simp [List.filter, this]
      · have hb : (v.id == floorId record) = false := beq_eq_false_iff_ne.mpr hvk
        simp only [hb, Bool.false_eq_true, if_false]
        rw [List.filter_append, ← hlines v hv]
        have : (floorId record == v.id) = false := beq_eq_false_iff_ne.mpr (fun e => hvk e.symm)
        simp [List.filter, this]
    · intro r hr
      rcases List.mem_append.mp hr with hr | hr
      · obtain ⟨v, hv, hvid⟩ := hcover r hr
        exact ⟨_, List.mem_map.mpr ⟨v, hv, rfl⟩, (hid v).trans hvid⟩
      · rw [List.mem_singleton] at hr
        subst hr
        obtain ⟨v, hv, hvb⟩ := List.any_eq_true.mp hex
        exact ⟨_, List.mem_map.mpr ⟨v, hv, rfl⟩, (hid v).trans (beq_iff_eq.mp hvb)⟩
  · have hall : ∀ v ∈ grouped, v.id ≠ floorId record := by
      intro v hv
      have := List.any_eq_false.mp (Bool.eq_false_iff.mpr hex) v hv
      exact fun e => this (beq_iff_eq.mpr e)
    simp only [addRecord, if_neg hex]
    refine ⟨?_, ?_, ?_⟩
    · rw [List.map_append]
      rw [List.nodup_append]
      refine ⟨hnd, List.nodup_singleton _, ?_⟩
      intro a ha hb
      rw [List.map_singleton, List.mem_singleton] at hb
      obtain ⟨v, hv, rfl⟩ := List.mem_map.mp ha
      exact hall v hv hb
    · intro v hv
      rcases List.mem_append.mp hv with hv | hv
      · rw [List.filter_append, ← hlines v hv]
        have : (floorId record == v.id) = false :=
          beq_eq_false_iff_ne.mpr (fun e => hall v hv e.symm)
        simp [List.filter, this]
      · rw [List.mem_singleton] at hv
        subst hv
        rw [List.filter_append]
        have h1 : processed.filter (fun r => floorId r == floorId record) = [] := by
          rw [List.filter_eq_nil_iff]
          intro r' hr' hb
          obtain ⟨v, hv, hvid⟩ := hcover r' hr'
          exact hall v hv (hvid.trans (beq_iff_eq.mp hb))
        simp [h1, List.filter]
    · intro r hr
      rcases List.mem_append.mp hr with hr | hr
      · obtain ⟨v, hv, hvid⟩ := hcover r hr
        exact ⟨v, List.mem_append_left _ hv, hvid⟩
      · rw [List.mem_singleton] at hr
        subst hr
        exact ⟨_, List.mem_append_right _ (List.mem_singleton_self _), rfl⟩

theorem foldl_addRecord_inv (rawData : List LineRecord) :
    ∀ (processed : List LineRecord) (grouped : List Verse),
      GroupInv processed grouped →
      GroupInv (processed ++ rawData) (rawData.foldl addRecord grouped) := by
  induction rawData with
  | nil => intro p g h; simpa using h
  | cons r rs ih =>
    intro p g h
    have h2 := ih (p ++ [r]) (addRecord g r) (addRecord_inv p g r h)
    rw [List.append_assoc] at h2
    simpa using h2

theorem groupRecords_inv (rawData : List LineRecord) :
    GroupInv rawData (groupRecords rawData) := by
  have h := foldl_addRecord_inv rawData [] [] ⟨by simp, by simp, by simp⟩
  simpa [groupRecords] using h

theorem floorId_eq_floor (r : LineRecord) : floorId r = ⌊r.verse_number⌋ :=
  (Rat.floor_def' r.verse_number).trans Rat.floor_def.symm

theorem mem_initVerses (rawData : List LineRecord) (v : Verse)
    (hv : v ∈ initVerses rawData) :
    ∃ u ∈ groupRecords rawData, v = sortVerseLines u := by
  have hv2 : v ∈ sortByKey (fun v : Verse => v.id)
      ((groupRecords rawData).map sortVerseLines) := hv
  have h1 : v ∈ (groupRecords rawData).map sortVerseLines :=
    (sortByKey_perm (fun v : Verse => v.id)
      ((groupRecords rawData).map sortVerseLines)).mem_iff.mp hv2
  obtain ⟨u, hu, he⟩ := List.mem_map.mp h1
  exact ⟨u, hu, he.symm⟩

/-- C3: the assembled verse sequence is strictly increasing by id, ids are
pairwise distinct, and each verse's id is the floor of the `verse_number`
of every one of its lines. -/
theorem c3_assembly_ordered (rawData : List LineRecord) :
    (initVerses rawData).Pairwise (fun a b => a.id < b.id) ∧
    ((initVerses rawData).map (fun v => v.id)).Nodup ∧
    ∀ v ∈ initVerses rawData, ∀ r ∈ v.lines, ⌊r.verse_number⌋ = v.id := by
  obtain ⟨hnd, hlines, -⟩ := groupRecords_inv rawData
  have hids : ((groupRecords rawData).map sortVerseLines).map (fun v => v.id) =
      (groupRecords rawData).map (fun v => v.id) := by
    rw [List.map_map]
    exact List.map_congr_left (fun a _ => rfl)
  have hmapnd : ((initVerses rawData).map (fun v => v.id)).Nodup := by
    have hperm := (sortByKey_perm (fun v : Verse => v.id)
      ((groupRecords rawData).map sortVerseLines)).map (fun v : Verse => v.id)
    show (List.map (fun v : Verse => v.id) (sortByKey (fun v : Verse => v.id)
      ((groupRecords rawData).map sortVerseLines))).Nodup
    rw [hperm.nodup_iff, hids]
    exact hnd
  refine ⟨?_, hmapnd, ?_⟩
  · have hle : (initVerses rawData).Pairwise (fun a b => a.id ≤ b.id) :=
      sortByKey_pairwise (fun v : Verse => v.id)
        ((groupRecords rawData).map sortVerseLines)
    have hne : (initVerses rawData).Pairwise (fun a b => a.id ≠ b.id) :=
      List.pairwise_map.mp hmapnd
    exact (hle.and hne).imp (fun h => lt_of_le_of_ne h.1 h.2)
  · intro v hv r hr
    obtain ⟨u, hu, rfl⟩ := mem_initVerses rawData v hv
    have hr2 : r ∈ u.lines := by
      have : r ∈ sortByKey lineKey u.lines := hr
      exact (sortByKey_perm lineKey u.lines).mem_iff.mp this
    rw [hlines u hu] at hr2
    have := (List.mem_filter.mp hr2).2
    rw [← floorId_eq_floor]
    exact beq_iff_eq.mp this

/-- C4: each assembled verse's lines are sorted ascending by
`line_number || 0`, and the sort is stable: for every key value the
subsequence having that key is exactly the one the input presents, in
input order. -/
theorem c4_lines_sorted_stable (rawData : List LineRecord) :
    ∀ v ∈ initVerses rawData,
      v.lines.Pairwise (fun a b => lineKey a ≤ lineKey b) ∧
      ∀ k : Int, v.lines.filter (fun r => lineKey r == k) =
        (rawData.filter (fun r => floorId r == v.id)).filter
          (fun r => lineKey r == k) := by
  obtain ⟨-, hlines, -⟩ := groupRecords_inv rawData
  intro v hv
  obtain ⟨u, hu, rfl⟩ := mem_initVerses rawData v hv
  constructor
  · exact sortByKey_pairwise lineKey u.lines
  · intro k
    have h1 : (sortVerseLines u).lines = sortByKey lineKey u.lines := rfl
    rw [h1, sortByKey_filter, hlines u hu]
    rfl

/-- Sample records: floors 2, 1, 2 with equal line keys on the two lines
of verse 2 so that stability is observable. -/
def recA : LineRecord := ⟨some "ch", mkRat 5 2, some 1, some "A", none, none⟩

def recB : LineRecord := ⟨some "ch", mkRat 6 5, some 1, some "B", none, none⟩

def recC : LineRecord := ⟨some "ch", mkRat 21 10, some 1, some "C", none, none⟩

def sampleRaw : List LineRecord := [recA, recB, recC]

def verseTwo : Verse := ⟨2, some "ch", [recA, recC]⟩

/-- C3 witness: on the concrete input, verse 2 is produced, contains
`recA` (with `verse_number = 5/2`), and `⌊5/2⌋ = 2` is its id. -/
theorem c3_witness :
    verseTwo ∈ initVerses sampleRaw ∧ recA ∈ verseTwo.lines ∧
    ⌊recA.verse_number⌋ = verseTwo.id :=
  ⟨by decide, by decide,
    (c3_assembly_ordered sampleRaw).2.2 verseTwo (by decide) recA (by decide)⟩

/-- C4 witness: verse 2's lines are sorted by line key, and the lines with
key 1 appear in input order (`recA` before `recC`). -/
theorem c4_witness :
    verseTwo ∈ initVerses sampleRaw ∧
    verseTwo.lines.Pairwise (fun a b => lineKey a ≤ lineKey b) ∧
    verseTwo.lines.filter (fun r => lineKey r == 1) =
      (sampleRaw.filter (fun r => floorId r == verseTwo.id)).filter
        (fun r => lineKey r == 1) :=
  ⟨by decide, (c4_lines_sorted_stable sampleRaw verseTwo (by decide)).1,
    (c4_lines_sorted_stable sampleRaw verseTwo (by decide)).2 1⟩

/-- Embeds the `Promise.all(fetchPromises)` barrier (src/app.js 40-54):
each element is one settled per-verse fetch, either the parsed array of
line records or the thrown `Failed to load verse ... with status ...`
error; `Promise.all` succeeds with all arrays iff every fetch succeeded,
and otherwise rejects with a failing fetch's error (which failure's
message surfaces is timing-dependent in the browser; this model keeps the
first in list order, which the claims never depend on). -/
def fetchAllSettled : List (Except String (List LineRecord)) →
    Except String (List (List LineRecord))
  | [] => .ok []
  | .error e :: _ => .error e
  | .ok v :: rest =>
    match fetchAllSettled rest with
    | .ok vs => .ok (v :: vs)
    | .error e => .error e

/-- The observable outcome of `initData` on the verse data: the final
`state.verses` (initially `[]`, assigned only at src/app.js 76) and the
error banner text rendered by the catch block (src/app.js 86-95), if any. -/
structure InitOutcome where
  verses : List Verse
  errorShown : Option String
deriving DecidableEq

/-- Embeds the fetch-and-assemble part of `initData` (src/app.js 52-96):
on success of the `Promise.all` barrier the arrays are flattened and
assembled into `state.verses`; on failure the catch block leaves
`state.verses` untouched (empty) and shows the error. -/
def runInitData (results : List (Except String (List LineRecord))) : InitOutcome :=
  match fetchAllSettled results with
  | .ok allVerseLines => { verses := initVerses allVerseLines.flatten, errorShown := none }
  | .error e => { verses := [], errorShown := some e }

/-- Whether a settled fetch is a failure. -/
def isErr : Except String (List LineRecord) → Bool
  | .error _ => true
  | .ok _ => false

theorem fetchAllSettled_error (results : List (Except String (List LineRecord)))
    (h : results.any isErr = true) :
    ∃ e, fetchAllSettled results = .error e := by
  induction results with
  | nil => simp at h
  | cons r rs ih =>
    cases r with
    | error e => exact ⟨e, rfl⟩
    | ok v =>
      have h2 : rs.any isErr = true := by simpa [isErr] using h
      obtain ⟨e, he⟩ := ih h2
      refine ⟨e, ?_⟩
      simp [fetchAllSettled, he]

/-- C8: if any configured fetch fails, assembly fails atomically: the
verse list stays in its initial empty state and an error is surfaced. -/
theorem c8_atomic_failure (results : List (Except String (List LineRecord)))
    (h : results.any isErr = true) :
    (runInitData results).verses = [] ∧
    (runInitData results).errorShown.isSome = true := by
  obtain ⟨e, he⟩ := fetchAllSettled_error results h
  simp [runInitData, he]

/-- C8 witness: one failing fetch among five: no verses, error shown. -/
theorem c8_witness :
    (([.ok [], .ok [], .error "Failed to load verse 3 with status 404", .ok [], .ok []] :
        List (Except String (List LineRecord))).any isErr = true) ∧
    (runInitData [.ok [], .ok [], .error "Failed to load verse 3 with status 404",
      .ok [], .ok []]).verses = [] ∧
    (runInitData [.ok [], .ok [], .error "Failed to load verse 3 with status 404",
      .ok [], .ok []]).errorShown.isSome = true :=
  ⟨by decide,
    (c8_atomic_failure [.ok [], .ok [], .error "Failed to load verse 3 with status 404",
      .ok [], .ok []] (by decide)).1,
    (c8_atomic_failure [.ok [], .ok [], .error "Failed to load verse 3 with status 404",
      .ok [], .ok []] (by decide)).2⟩

/-- Splits a character sequence at every comma (the separators used by
`JSON.stringify` between array elements). -/
def splitOnComma : List Char → List (List Char)
  | [] => [[]]
  | c :: rest =>
    if c == ',' then [] :: splitOnComma rest
    else
      match splitOnComma rest with
      | [] => [[c]]
      | t :: ts => (c :: t) :: ts

/-- Value of a run of decimal digit characters. -/
def digitsVal (cs : List Char) : Nat :=
  cs.foldl (fun acc c => acc * 10 + (c.toNat - 48)) 0

/-- Parses one JSON integer literal (optional leading minus, then
digits). -/
def parseIntToken (cs : List Char) : Option Int :=
  match cs with
  | [] => none
  | '-' :: rest =>
    if rest ≠ [] ∧ rest.all (fun c => c.isDigit) then some (-(digitsVal rest : Int))
    else none
  | _ =>
    if cs.all (fun c => c.isDigit) then some ((digitsVal cs : Nat) : Int) else none

/-- Models `JSON.parse` on the payloads the app stores under the favorites
key: a whitespace-free JSON array of integer literals, exactly the format
`favsToJson` (i.e. `JSON.stringify`) produces. Every other string is a
parse failure (in the browser a thrown `SyntaxError`; a well-formed JSON
value of a different shape would corrupt `state.favorites` instead, which
this model likewise reports as a failure). -/
def parseFavsJson (s : String) : Option (List Int) :=
  match s.toList with
  | '[' :: rest =>
    if rest.getLast? = some ']' then
      if rest.dropLast = [] then some []
      else (splitOnComma rest.dropLast).mapM parseIntToken
    else none
  | _ => none

/-- Embeds the favorites-loading step of `initData` (src/app.js 35-37):
`const savedFavs = localStorage.getItem(...)` is `null` when nothing is
stored; `if (savedFavs)` skips falsy values (null or the empty string),
keeping the default `state.favorites = []`; otherwise
`state.favorites = JSON.parse(savedFavs)` runs OUTSIDE the try/catch of
lines 52-96, so a parse failure propagates as an uncaught exception
(modelled as `.error`) that aborts `initData` before any fetch starts. -/
def loadFavorites (stored : Option String) : Except String (List Int) :=
  match stored with
  | none => .ok []
  | some s =>
    if s = "" then .ok []
    else
      match parseFavsJson s with
      | some favs => .ok favs
      | none => .error "SyntaxError"

/-- C7: absence of a stored value does fall back to empty favorites, but a
malformed stored value does NOT: `JSON.parse` throws outside the try/catch
and initialization aborts instead of recovering, contradicting the claim
that a storage read failure is never fatal. -/
theorem c7_parse_failure_fatal :
    loadFavorites none = .ok [] ∧
    loadFavorites (some "") = .ok [] ∧
    loadFavorites (some "[5,7]") = .ok [5, 7] ∧
    loadFavorites (some "not-json") = .error "SyntaxError" ∧
    loadFavorites (some "not-json") ≠ .ok [] := by
  exact ⟨rfl, rfl, rfl, rfl, fun h => Except.noConfusion h⟩

theorem startsWith_iff (pat hay : List Char) :
    startsWith pat hay = true ↔ ∃ r, hay = pat ++ r := by
  induction pat generalizing hay with
  | nil =>
    simp only [startsWith, List.nil_append, true_iff]
    exact ⟨hay, rfl⟩
  | cons p ps ih =>
    cases hay with
    | nil =>
      simp only [startsWith, Bool.false_eq_true, false_iff]
      rintro ⟨r, hr⟩
      exact List.cons_ne_nil p (ps ++ r) hr.symm
    | cons c cs =>
      simp only [startsWith, Bool.and_eq_true, beq_iff_eq, ih, List.cons_append]
      constructor
      · rintro ⟨rfl, r, rfl⟩
        exact ⟨r, rfl⟩
      · rintro ⟨r, he⟩
        injection he with h1 h2
        exact ⟨h1.symm, r, h2⟩

theorem strIncludes_iff (hay pat : List Char) :
    strIncludes hay pat = true ↔ OccursIn pat hay := by
  induction hay with
  | nil =>
    simp only [strIncludes, startsWith_iff, OccursIn]
    constructor
    · rintro ⟨r, hr⟩
      exact ⟨[], r, by simpa using hr⟩
    · rintro ⟨l, r, hr⟩
      rcases List.append_eq_nil.mp hr.symm with ⟨h1, h2⟩
      rcases List.append_eq_nil.mp h1 with ⟨h3, h4⟩
      exact ⟨[], by simp [h4]⟩
  | cons c cs ih =>
    simp only [strIncludes, Bool.or_eq_true, startsWith_iff, ih, OccursIn]
    constructor
    · rintro (⟨r, hr⟩ | ⟨l, r, hr⟩)
      · exact ⟨[], r, by simpa using hr⟩
      · exact ⟨c :: l, r, by simp [hr]⟩
    · rintro ⟨l, r, hr⟩
      cases l with
      | nil => exact Or.inl ⟨r, by simpa using hr⟩
      | cons x xs =>
        right
        rw [List.cons_append, List.cons_append] at hr
        injection hr with h1 h2
        exact ⟨xs, r, h2⟩

theorem digitChar_lower : ∀ m : Nat, m < 10 →
    Char.toLower (Nat.digitChar m) = Nat.digitChar m := by decide

theorem toDigitsCore_lower (fuel : Nat) :
    ∀ (n : Nat) (ds : List Char), (∀ c ∈ ds, Char.toLower c = c) →
      ∀ c ∈ Nat.toDigitsCore 10 fuel n ds, Char.toLower c = c := by
  induction fuel with
  | zero =>
    intro n ds hds c hc
    exact hds c (by simpa [Nat.toDigitsCore] using hc)
  | succ f ih =>
    intro n ds hds c hc
    simp only [Nat.toDigitsCore] at hc
    have hd : Char.toLower (Nat.digitChar (n % 10)) = Nat.digitChar (n % 10) :=
      digitChar_lower (n % 10) (Nat.mod_lt n (by norm_num))
    by_cases h0 : n / 10 = 0
    · rw [if_pos h0] at hc
      rcases List.mem_cons.mp hc with rfl | hc
      · exact hd
      · exact hds c hc
    · rw [if_neg h0] at hc
      refine ih (n / 10) (Nat.digitChar (n % 10) :: ds) ?_ c hc
      intro x hx
      rcases List.mem_cons.mp hx with rfl | hx
      · exact hd
      · exact hds x hx

theorem lower_nat_repr (n : Nat) :
    lowerChars (Nat.repr n).toList = (Nat.repr n).toList := by
  have hall : ∀ c ∈ Nat.toDigits 10 n, Char.toLower c = c :=
    toDigitsCore_lower (n + 1) n [] (by simp)
  show List.map Char.toLower (Nat.toDigits 10 n) = Nat.toDigits 10 n
  calc List.map Char.toLower (Nat.toDigits 10 n)
      = List.map id (Nat.toDigits 10 n) :=
        List.map_congr_left (fun c hc => hall c hc)
    _ = Nat.toDigits 10 n := List.map_id _

/-- The decimal string of an integer only contains digits and a minus
sign, so lower-casing it is the identity. -/
theorem lower_toString_int (i : Int) :
    lowerChars (toString i).toList = (toString i).toList := by
  cases i with
  | ofNat n => exact lower_nat_repr n
  | negSucc n =>
    show lowerChars ("-" ++ Nat.repr (n + 1)).toList = ("-" ++ Nat.repr (n + 1)).toList
    have hd : ("-" ++ Nat.repr (n + 1)).toList = '-' :: (Nat.repr (n + 1)).toList := by
      simp [String.toList]
    rw [hd]
    show Char.toLower '-' :: lowerChars (Nat.repr (n + 1)).toList =
      '-' :: (Nat.repr (n + 1)).toList
    rw [lower_nat_repr (n + 1)]
    rfl

/-- The spec's case-insensitive containment: the lower-cased term occurs
as a contiguous substring of the lower-cased text. -/
def ciContains (hay pat : String) : Prop :=
  OccursIn (lowerChars pat.toList) (lowerChars hay.toList)

/-- C5: for a non-empty search term, the filter retains a verse iff,
case-insensitively, the term occurs as a substring of the space-joined
concatenation of its lines' original/transliteration/translation text, or
of its chapter label, or of the decimal string form of its id. -/
theorem c5_search_filter (v : Verse) (q : String) (hq : q ≠ "") :
    verseMatches q v = true ↔
      (ciContains (rawText v) q ∨ ciContains (v.chapter.getD "") q ∨
        ciContains (toString v.id) q) := by
  have hid : lowerChars (toString v.id).toList = (toString v.id).toList :=
    lower_toString_int v.id
  simp only [verseMatches, Bool.or_eq_true, strIncludes_iff, ciContains, hid]
  tauto

/-- The spec scenario's verse: id 5, chapter "Intro", one line containing
"dharma". -/
def dharmaVerse : Verse :=
  ⟨5, some "Intro", [⟨some "Intro", mkRat 5 1, some 1, none, some "dharma line", none⟩]⟩

/-- C5 witness: searching `"DHARMA"` (mixed case) matches `dharmaVerse`
via the line text, and searching `"5"` matches it via the id string. -/
theorem c5_witness :
    ("DHARMA" : String) ≠ "" ∧
    (ciContains (rawText dharmaVerse) "DHARMA" ∨
      ciContains (dharmaVerse.chapter.getD "") "DHARMA" ∨
      ciContains (toString dharmaVerse.id) "DHARMA") ∧
    verseMatches "5" dharmaVerse = true :=
  ⟨by decide, (c5_search_filter dharmaVerse "DHARMA" (by decide)).mp (by decide),
    by decide⟩
